import Mathlib

/-!
Verification development for the EMCAL iterable container
(`PWG/EMCAL/EMCALbase/AliEmcalIterableContainer.h`).

The header defines `AliEmcalIterableContainerT<T>`, a read-only filtered
view over an external `AliEmcalContainer`, together with a bidirectional
iterator.  Below is a shallow embedding of the template: the external
container is an opaque record of its observable interface, the ROOT
`TArrayI` member is modelled by a list of integers with ROOT's documented
out-of-bounds behaviour, and the member functions are translated directly
from the header.
-/

/-- Interface of the external backing collection `AliEmcalContainer`
(declared but not defined in this repository): an entry count
(`GetNEntries`), a reported accepted-entry count used as a sizing hint
(`GetNAcceptEntries`), the acceptance predicate (`AcceptObject`; the
rejection-reason out-parameter is dropped because the caller in
`BuildAcceptIndices` discards it), and random access (`operator[]`,
modelled by the total function `elem`). -/
structure AliEmcalContainer (α : Type) where
  GetNEntries : ℤ
  GetNAcceptEntries : ℤ
  AcceptObject : ℤ → Bool
  elem : ℤ → α

/-- Model of ROOT `TArrayI`: a dynamically sized integer array; `fArray`
holds the contents, the size is its length. -/
structure TArrayI where
  fArray : List ℤ
deriving DecidableEq

/-- Size of the array, `TArrayI::GetSize`, as a C `int`. -/
def TArrayI.GetSize (a : TArrayI) : ℤ := a.fArray.length

/-- ROOT `TArrayI::Set(n)` applied to a default-constructed (empty) array,
which is the only way the header uses it: for `n < 0` it leaves the array
empty, otherwise it allocates `n` slots and zero-fills them. -/
def TArrayI.Set (n : ℤ) : TArrayI := ⟨List.replicate n.toNat 0⟩

/-- Read access `TArrayI::At` / const `operator[]`: ROOT's `BoundsOk`
check returns `0` for an out-of-range index. -/
def TArrayI.At (a : TArrayI) (i : ℤ) : ℤ :=
  if 0 ≤ i ∧ i < a.GetSize then a.fArray.getD i.toNat 0 else 0

/-- Write access through non-const `TArrayI::operator[]`: when `BoundsOk`
fails, ROOT redirects the index to `0` (after reporting an out-of-bounds
error) and the write clobbers slot 0 of a non-empty array.  (On an empty
array the real code dereferences a null buffer; the claims below never
depend on the result of that branch, only on whether it is reached.) -/
def TArrayI.setAt (a : TArrayI) (i x : ℤ) : TArrayI :=
  ⟨a.fArray.set (if 0 ≤ i ∧ i < a.GetSize then i.toNat else 0) x⟩

/-- Index sequence of the C loop `for (int index = 0; index < n; index++)`. -/
def loopIndices (n : ℤ) : List ℤ := (List.range n.toNat).map Int.ofNat

/-- One iteration of the loop body of `BuildAcceptIndices`: state is the
pair (`fAcceptIndices`, `acceptCounter`); if `AcceptObject` accepts the
index, it is written at the counter position and the counter advances. -/
def acceptStep (cont : AliEmcalContainer α) (st : TArrayI × ℤ) (index : ℤ) :
    TArrayI × ℤ :=
  if cont.AcceptObject index then (st.1.setAt st.2 index, st.2 + 1) else st

/-- `AliEmcalIterableContainerT<T>::BuildAcceptIndices`: size the array to
the reported `GetNAcceptEntries()` hint, then scan all entries in
increasing order writing each accepted index at the running counter. -/
def BuildAcceptIndices (cont : AliEmcalContainer α) : TArrayI :=
  ((loopIndices cont.GetNEntries).foldl (acceptStep cont)
    (TArrayI.Set cont.GetNAcceptEntries, 0)).1

/-- The view `AliEmcalIterableContainerT<T>`: backing container pointer,
accept-index array and the all/accepted switch. -/
structure AliEmcalIterableContainerT (α : Type) where
  fkContainer : AliEmcalContainer α
  fAcceptIndices : TArrayI
  fUseAccepted : Bool

/-- The standard constructor
`AliEmcalIterableContainerT(const AliEmcalContainer *cont, bool useAccept)`:
stores the container and the switch; when `useAccept` is set it runs
`BuildAcceptIndices`, otherwise `fAcceptIndices` stays default-empty. -/
def mkIterable (cont : AliEmcalContainer α) (useAccept : Bool) :
    AliEmcalIterableContainerT α :=
  ⟨cont, if useAccept then BuildAcceptIndices cont else ⟨[]⟩, useAccept⟩

/-- `AliEmcalIterableContainerT<T>::GetEntries`: the accept-array size in
accepted mode, the container's entry count otherwise. -/
def AliEmcalIterableContainerT.GetEntries
    (v : AliEmcalIterableContainerT α) : ℤ :=
  if v.fUseAccepted then v.fAcceptIndices.GetSize else v.fkContainer.GetNEntries

/-- `AliEmcalIterableContainerT<T>::operator[]`: `NULL` (here `none`) when
the index is out of `[0, GetEntries())`; otherwise the container element at
the mapped position (through `fAcceptIndices` in accepted mode). -/
def AliEmcalIterableContainerT.opIndex
    (v : AliEmcalIterableContainerT α) (index : ℤ) : Option α :=
  if index < 0 ∨ v.GetEntries ≤ index then none
  else some (if v.fUseAccepted
    then v.fkContainer.elem (v.fAcceptIndices.At index)
    else v.fkContainer.elem index)

/-- The nested class `AliEmcalIterableContainerT<T>::iterator`: view
pointer, current position, direction flag. -/
structure ContIterator (α : Type) where
  fkData : AliEmcalIterableContainerT α
  fCurrent : ℤ
  fForward : Bool

/-- The iterator `operator!=`: compares only the positions. -/
def ContIterator.neOp (a b : ContIterator α) : Bool :=
  a.fCurrent != b.fCurrent

/-- Prefix `operator++`: position moves by `+1` forward, `-1` backward. -/
def ContIterator.incOp (it : ContIterator α) : ContIterator α :=
  if it.fForward then { it with fCurrent := it.fCurrent + 1 }
  else { it with fCurrent := it.fCurrent - 1 }

/-- Prefix `operator--`: position moves by `-1` forward, `+1` backward. -/
def ContIterator.decOp (it : ContIterator α) : ContIterator α :=
  if it.fForward then { it with fCurrent := it.fCurrent - 1 }
  else { it with fCurrent := it.fCurrent + 1 }

/-- Postfix `operator++(int)`: first component is the iterator's new state,
second the returned pre-increment snapshot. -/
def ContIterator.incPost (it : ContIterator α) :
    ContIterator α × ContIterator α := (it.incOp, it)

/-- Postfix `operator--(int)`: first component is the iterator's new state,
second the returned pre-decrement snapshot. -/
def ContIterator.decPost (it : ContIterator α) :
    ContIterator α × ContIterator α := (it.decOp, it)

/-- Iterator `operator*`: delegates to the view's `operator[]` at the
current position. -/
def ContIterator.derefOp (it : ContIterator α) : Option α :=
  it.fkData.opIndex it.fCurrent

/-- `begin()`: forward iterator at position 0. -/
def AliEmcalIterableContainerT.begin
    (v : AliEmcalIterableContainerT α) : ContIterator α := ⟨v, 0, true⟩

/-- `end()`: forward iterator at position `GetEntries()`. -/
def AliEmcalIterableContainerT.endIter
    (v : AliEmcalIterableContainerT α) : ContIterator α := ⟨v, v.GetEntries, true⟩

/-- `rbegin()`: backward iterator at position `GetEntries() - 1`. -/
def AliEmcalIterableContainerT.rbegin
    (v : AliEmcalIterableContainerT α) : ContIterator α := ⟨v, v.GetEntries - 1, false⟩

/-- `rend()`: backward iterator at position `-1`. -/
def AliEmcalIterableContainerT.rend
    (v : AliEmcalIterableContainerT α) : ContIterator α := ⟨v, -1, false⟩

/-- The canonical iteration loop
`for (iter = cur; iter != stop; ++iter) visit(*iter)` as a fuelled
function collecting the dereferenced values in visiting order. -/
def iterTraverse (cur stop : ContIterator α) : ℕ → List (Option α)
  | 0 => []
  | fuel + 1 =>
    if cur.neOp stop then cur.derefOp :: iterTraverse cur.incOp stop fuel else []

/-- Specification-side quantity: the actual number of positions in
`[0, GetNEntries())` accepted by the predicate. -/
def numAccepted (cont : AliEmcalContainer α) : ℤ :=
  ((loopIndices cont.GetNEntries).countP cont.AcceptObject : ℕ)

/-- Specification-side quantity: the ordered list of accepted positions in
`[0, GetNEntries())`. -/
def acceptedList (cont : AliEmcalContainer α) : List ℤ :=
  (loopIndices cont.GetNEntries).filter cont.AcceptObject

/-- Instrumentation of the `BuildAcceptIndices` loop recording, instead of
the array, the storage slot targeted by each write of an accepted index
(the running counter value at which the write happens). -/
def targetStep (cont : AliEmcalContainer α) (st : List ℤ × ℤ) (index : ℤ) :
    List ℤ × ℤ :=
  if cont.AcceptObject index then (st.1 ++ [st.2], st.2 + 1) else st

/-- The sequence of storage slots written during `BuildAcceptIndices`. -/
def writeTargets (cont : AliEmcalContainer α) : List ℤ :=
  ((loopIndices cont.GetNEntries).foldl (targetStep cont) ([], 0)).1

theorem foldl_acceptStep_length (cont : AliEmcalContainer α) :
    ∀ (l : List ℤ) (st : TArrayI × ℤ),
      ((l.foldl (acceptStep cont) st).1).fArray.length = st.1.fArray.length
  | [], _ => rfl
  | i :: t, st => by
    rw [List.foldl_cons, foldl_acceptStep_length cont t]
    unfold acceptStep
    split
    · simp [TArrayI.setAt]
    · rfl

theorem foldl_acceptStep_spec (cont : AliEmcalContainer α) :
    ∀ (l : List ℤ) (arr : List ℤ) (c : ℕ),
      c + l.countP cont.AcceptObject ≤ arr.length →
      l.foldl (acceptStep cont) (⟨arr⟩, (c : ℤ)) =
        (⟨arr.take c ++ l.filter cont.AcceptObject ++
            arr.drop (c + l.countP cont.AcceptObject)⟩,
          ((c + l.countP cont.AcceptObject : ℕ) : ℤ))
  | [], arr, c, h => by
    simp [List.take_append_drop]
  | i :: t, arr, c, h => by
    rw [List.countP_cons] at h ⊢
    rw [List.foldl_cons]
    by_cases hp : cont.AcceptObject i
    · have hc : c < arr.length := by simp [hp] at h; omega
      have hstep : acceptStep cont (⟨arr⟩, (c : ℤ)) i =
          (⟨arr.set c i⟩, ((c + 1 : ℕ) : ℤ)) := by
        unfold acceptStep TArrayI.setAt TArrayI.GetSize
        simp only [hp, if_true, Prod.mk.injEq, TArrayI.mk.injEq]
        refine ⟨?_, ?_⟩
        · rw [if_pos ⟨Int.ofNat_nonneg c, by exact_mod_cast hc⟩]
          simp
        · push_cast; ring
      rw [hstep]
      have hbound : (c + 1) + t.countP cont.AcceptObject ≤ (arr.set c i).length := by
        simp [hp] at h; simp; omega
      rw [foldl_acceptStep_spec cont t (arr.set c i) (c + 1) hbound]
      have hset : arr.set c i = arr.take c ++ i :: arr.drop (c + 1) :=
        List.set_eq_take_cons_drop i hc
      have htake : (arr.set c i).take (c + 1) = arr.take c ++ [i] := by
        rw [hset, List.take_append_eq_append_take]
        have h1 : (arr.take c).length = c := by simp; omega
        rw [List.take_of_length_le (by omega), h1]
        simp
      have hdrop : (arr.set c i).drop ((c + 1) + t.countP cont.AcceptObject) =
          arr.drop ((c + 1) + t.countP cont.AcceptObject) := by
        rw [hset, List.drop_append_eq_append_drop]
        have h1 : (arr.take c).length = c := by simp; omega
        rw [List.drop_eq_nil_of_le (by simp; omega), h1]
        have h2 : (c + 1) + t.countP cont.AcceptObject - c
            = t.countP cont.AcceptObject + 1 := by omega
        rw [h2, List.drop_succ_cons, List.drop_drop]
        simp only [List.nil_append]
      rw [htake, hdrop]
      simp only [hp, List.filter_cons, if_true, Prod.mk.injEq, TArrayI.mk.injEq]
      have hidx : (c + 1) + t.countP cont.AcceptObject
          = c + (t.countP cont.AcceptObject + 1) := by omega
      refine ⟨?_, ?_⟩
      · rw [hidx]
        simp [List.append_assoc]
      · congr 1
    · simp only [hp, Bool.false_eq_true, if_false] at h ⊢
      have hstep : acceptStep cont (⟨arr⟩, (c : ℤ)) i = (⟨arr⟩, (c : ℤ)) := by
        unfold acceptStep; simp [hp]
      rw [hstep, foldl_acceptStep_spec cont t arr c (by omega)]
      simp [List.filter_cons, hp]

theorem foldl_targetStep_spec (cont : AliEmcalContainer α) :
    ∀ (l : List ℤ) (acc : List ℤ) (c : ℕ),
      l.foldl (targetStep cont) (acc, (c : ℤ)) =
        (acc ++ (List.range (l.countP cont.AcceptObject)).map
            (fun k => ((c + k : ℕ) : ℤ)),
          ((c + l.countP cont.AcceptObject : ℕ) : ℤ))
  | [], acc, c => by simp
  | i :: t, acc, c => by
    rw [List.countP_cons, List.foldl_cons]
    by_cases hp : cont.AcceptObject i
    · have hstep : targetStep cont (acc, (c : ℤ)) i =
          (acc ++ [(c : ℤ)], ((c + 1 : ℕ) : ℤ)) := by
        simp [targetStep, hp]
      rw [hstep, foldl_targetStep_spec cont t (acc ++ [(c : ℤ)]) (c + 1)]
      simp only [hp, if_true, Prod.mk.injEq]
      have hfun : (fun k => ((c + 1 + k : ℕ) : ℤ))
          = fun k => ((c + Nat.succ k : ℕ) : ℤ) := by
        funext k; congr 1; omega
      refine ⟨?_, by congr 1; omega⟩
      rw [List.range_succ_eq_map, List.map_cons, List.map_map, hfun]
      simp [Function.comp_def]
    · have hstep : targetStep cont (acc, (c : ℤ)) i = (acc, (c : ℤ)) := by
        unfold targetStep; simp [hp]
      rw [hstep, foldl_targetStep_spec cont t acc c]
      simp [hp]

theorem BuildAcceptIndices_length (cont : AliEmcalContainer α) :
    (BuildAcceptIndices cont).fArray.length = cont.GetNAcceptEntries.toNat := by
  unfold BuildAcceptIndices
  rw [foldl_acceptStep_length]
  simp [TArrayI.Set]

theorem BuildAcceptIndices_eq (cont : AliEmcalContainer α)
    (h : cont.GetNAcceptEntries = numAccepted cont) :
    (BuildAcceptIndices cont).fArray = acceptedList cont := by
  unfold BuildAcceptIndices
  have hn : cont.GetNAcceptEntries.toNat
      = (loopIndices cont.GetNEntries).countP cont.AcceptObject := by
    rw [h]; unfold numAccepted; exact Int.toNat_natCast _
  have h0 : (TArrayI.Set cont.GetNAcceptEntries, (0 : ℤ))
      = ((⟨List.replicate
            ((loopIndices cont.GetNEntries).countP cont.AcceptObject) 0⟩ : TArrayI),
          ((0 : ℕ) : ℤ)) := by
    unfold TArrayI.Set
    rw [hn]
    simp
  rw [h0, foldl_acceptStep_spec cont _ _ 0 (by simp)]
  unfold acceptedList
  simp

theorem writeTargets_eq (cont : AliEmcalContainer α) :
    writeTargets cont
      = (List.range ((loopIndices cont.GetNEntries).countP cont.AcceptObject)).map
          (fun k : ℕ => (k : ℤ)) := by
  unfold writeTargets
  have h0 : (([] : List ℤ), (0 : ℤ)) = (([] : List ℤ), ((0 : ℕ) : ℤ)) := rfl
  rw [h0, foldl_targetStep_spec]
  simp only [List.nil_append]
  apply List.map_congr_left
  intro a _
  simp

theorem loopIndices_pairwise (n : ℤ) : (loopIndices n).Pairwise (· < ·) := by
  unfold loopIndices
  rw [List.pairwise_map]
  exact (List.pairwise_lt_range _).imp (fun hab => Int.ofNat_lt.mpr hab)

theorem acceptedList_pairwise (cont : AliEmcalContainer α) :
    (acceptedList cont).Pairwise (· < ·) :=
  List.Pairwise.sublist (List.filter_sublist _) (loopIndices_pairwise _)

theorem acceptedList_length (cont : AliEmcalContainer α) :
    ((acceptedList cont).length : ℤ) = numAccepted cont := by
  unfold acceptedList numAccepted
  rw [List.countP_eq_length_filter]

theorem iterTraverse_forward (v : AliEmcalIterableContainerT α) (stop : ContIterator α) :
    ∀ (m : ℕ) (p : ℤ) (fuel : ℕ), m ≤ fuel → stop.fCurrent = p + m →
      iterTraverse ⟨v, p, true⟩ stop fuel
        = (List.range m).map (fun k : ℕ => v.opIndex (p + k))
  | 0, p, fuel, _, hs => by
    cases fuel with
    | zero => rfl
    | succ f =>
      unfold iterTraverse
      rw [if_neg]
      · simp
      · simp [ContIterator.neOp, hs]
  | m + 1, p, fuel, hf, hs => by
    cases fuel with
    | zero => omega
    | succ f =>
      unfold iterTraverse
      rw [if_pos]
      · have hinc : (⟨v, p, true⟩ : ContIterator α).incOp = ⟨v, p + 1, true⟩ := by
          simp [ContIterator.incOp]
        rw [hinc, iterTraverse_forward v stop m (p + 1) f (by omega)
          (by rw [hs]; push_cast; ring)]
        have hfun : ((fun k : ℕ => v.opIndex (p + k)) ∘ Nat.succ)
            = fun k : ℕ => v.opIndex (p + 1 + k) := by
          funext k
          simp only [Function.comp_apply]
          congr 1
          push_cast
          ring
        rw [List.range_succ_eq_map, List.map_cons, List.map_map, hfun]
        simp [ContIterator.derefOp]
      · simp only [ContIterator.neOp, hs, bne_iff_ne, ne_eq]
        intro hcon
        omega

theorem iterTraverse_backward (v : AliEmcalIterableContainerT α) (stop : ContIterator α) :
    ∀ (m : ℕ) (p : ℤ) (fuel : ℕ), m ≤ fuel → stop.fCurrent = p - m →
      iterTraverse ⟨v, p, false⟩ stop fuel
        = (List.range m).map (fun k : ℕ => v.opIndex (p - k))
  | 0, p, fuel, _, hs => by
    cases fuel with
    | zero => rfl
    | succ f =>
      unfold iterTraverse
      rw [if_neg]
      · simp
      · simp [ContIterator.neOp, hs]
  | m + 1, p, fuel, hf, hs => by
    cases fuel with
    | zero => omega
    | succ f =>
      unfold iterTraverse
      rw [if_pos]
      · have hinc : (⟨v, p, false⟩ : ContIterator α).incOp = ⟨v, p - 1, false⟩ := by
          simp [ContIterator.incOp]
        rw [hinc, iterTraverse_backward v stop m (p - 1) f (by omega)
          (by rw [hs]; push_cast; ring)]
        have hfun : ((fun k : ℕ => v.opIndex (p - k)) ∘ Nat.succ)
            = fun k : ℕ => v.opIndex (p - 1 - k) := by
          funext k
          simp only [Function.comp_apply]
          congr 1
          push_cast
          ring
        rw [List.range_succ_eq_map, List.map_cons, List.map_map, hfun]
        simp [ContIterator.derefOp]
      · simp only [ContIterator.neOp, hs, bne_iff_ne, ne_eq]
        intro hcon
        omega

theorem map_range_reverse {γ : Type} (f : ℕ → γ) (n : ℕ) :
    ((List.range n).map f).reverse
      = (List.range n).map (fun k => f (n - 1 - k)) := by
  have h1 : (List.range n).reverse = (List.range n).map (fun k => n - 1 - k) := by
    conv_lhs => rw [List.range_eq_range']
    rw [List.reverse_range']
    apply List.map_congr_left
    intro a _
    omega
  rw [← List.map_reverse, h1, List.map_map]
  apply List.map_congr_left
  intro a _
  simp [Function.comp]

theorem foldl_acceptStep_congr (c1 c2 : AliEmcalContainer α)
    (hacc : ∀ i, c1.AcceptObject i = c2.AcceptObject i) :
    ∀ (l : List ℤ) (st : TArrayI × ℤ),
      l.foldl (acceptStep c1) st = l.foldl (acceptStep c2) st
  | [], _ => rfl
  | i :: t, st => by
    rw [List.foldl_cons, List.foldl_cons]
    unfold acceptStep
    rw [hacc i]
    exact foldl_acceptStep_congr c1 c2 hacc t _

/-- Backing collection of the specification's test scenario: five entries,
positions 1, 3 and 4 accepted, accurate accepted-count report of 3,
element at a position is the position itself. -/
def cont5 : AliEmcalContainer ℤ :=
  ⟨5, 3, fun i => decide (i = 1 ∨ i = 3 ∨ i = 4), fun i => i⟩

/-- Same counts and predicate as `cont5` but different element values,
used to exhibit that index construction ignores the elements. -/
def cont5alt : AliEmcalContainer ℤ :=
  ⟨5, 3, fun i => decide (i = 1 ∨ i = 3 ∨ i = 4), fun i => i * 10⟩

/-- Collection whose reported accepted count (2) over-reports the actual
number of accepted positions (0). -/
def contHintHigh : AliEmcalContainer ℤ := ⟨1, 2, fun _ => false, fun i => i⟩

/-- Collection whose reported accepted count (1) under-reports the actual
number of accepted positions (2). -/
def contOver : AliEmcalContainer ℤ := ⟨2, 1, fun _ => true, fun i => i⟩

/-- Collection with an over-reporting hint (2 reported, only position 1
accepted) leaving zero padding in the built index array. -/
def contPad : AliEmcalContainer ℤ := ⟨2, 2, fun i => decide (i = 1), fun i => i⟩

/-- The empty collection. -/
def contEmpty : AliEmcalContainer ℤ := ⟨0, 0, fun _ => false, fun i => i⟩

/-- Claim C1, counterexample: over a collection whose reported accepted
count (2) differs from the actual accepted count (0), the ACCEPTED_ONLY
view's count does not equal the number of accepted positions — it equals
the reported hint. -/
theorem claim_C1_cex :
    (mkIterable contHintHigh true).GetEntries ≠ numAccepted contHintHigh := by
  decide

/-- Claim C1 (amended): for every backing collection, in ALL mode the
view's count equals the backing collection's count, and in ACCEPTED_ONLY
mode it equals the reported `GetNAcceptEntries()` clamped to zero — both
unconditionally; moreover, whenever the reported value is nonnegative (as
a count report is), the view's count equals the actual number of accepted
positions if and only if the reported value is accurate. -/
theorem claim_C1_amended (cont : AliEmcalContainer α) :
    (mkIterable cont false).GetEntries = cont.GetNEntries ∧
    (mkIterable cont true).GetEntries = max cont.GetNAcceptEntries 0 ∧
    (0 ≤ cont.GetNAcceptEntries →
      ((mkIterable cont true).GetEntries = numAccepted cont ↔
        cont.GetNAcceptEntries = numAccepted cont)) := by
  have hmax : (mkIterable cont true).GetEntries = max cont.GetNAcceptEntries 0 := by
    show ((BuildAcceptIndices cont).fArray.length : ℤ) = _
    rw [BuildAcceptIndices_length]
    omega
  refine ⟨rfl, hmax, ?_⟩
  intro hpos
  rw [hmax]
  omega

/-- Claim C1, witness at the five-element scenario collection, whose
nonnegative report (3) is accurate. -/
theorem claim_C1_witness :
    (mkIterable cont5 false).GetEntries = cont5.GetNEntries ∧
    (mkIterable cont5 true).GetEntries = max cont5.GetNAcceptEntries 0 ∧
    (0 ≤ cont5.GetNAcceptEntries →
      ((mkIterable cont5 true).GetEntries = numAccepted cont5 ↔
        cont5.GetNAcceptEntries = numAccepted cont5)) :=
  claim_C1_amended cont5

/-- Claim C2, counterexample: when the reported accepted count (1)
under-reports the actual accepted count (2), the built storage has
capacity below the actual count and a write targets a slot outside the
storage bounds. -/
theorem claim_C2_cex :
    ¬ (numAccepted contOver ≤ (BuildAcceptIndices contOver).GetSize ∧
        ∀ t ∈ writeTargets contOver,
          0 ≤ t ∧ t < (TArrayI.Set contOver.GetNAcceptEntries).GetSize) := by
  decide

/-- Claim C2 (amended): the storage is sized to the reported hint, not to
the actual accepted count; provided the actual accepted count is at most
the reported hint, the storage capacity is at least the actual count and
every write of an accepted position lands within storage bounds. -/
theorem claim_C2_amended (cont : AliEmcalContainer α)
    (h : numAccepted cont ≤ cont.GetNAcceptEntries) :
    numAccepted cont ≤ (BuildAcceptIndices cont).GetSize ∧
    ∀ t ∈ writeTargets cont,
      0 ≤ t ∧ t < (TArrayI.Set cont.GetNAcceptEntries).GetSize := by
  have hsize : (BuildAcceptIndices cont).GetSize
      = (cont.GetNAcceptEntries.toNat : ℤ) := by
    unfold TArrayI.GetSize
    rw [BuildAcceptIndices_length]
  have hsize2 : (TArrayI.Set cont.GetNAcceptEntries).GetSize
      = (cont.GetNAcceptEntries.toNat : ℤ) := by
    simp [TArrayI.Set, TArrayI.GetSize]
  have hna : 0 ≤ numAccepted cont := Int.natCast_nonneg _
  constructor
  · rw [hsize]; omega
  · intro t ht
    rw [writeTargets_eq] at ht
    obtain ⟨k, hk, rfl⟩ := List.mem_map.mp ht
    have hk' := List.mem_range.mp hk
    have hkz : (k : ℤ) < numAccepted cont := by
      unfold numAccepted
      exact_mod_cast hk'
    rw [hsize2]
    exact ⟨Int.natCast_nonneg _, by omega⟩

/-- Claim C2, witness at the five-element scenario collection, whose
reported accepted count is accurate. -/
theorem claim_C2_witness :
    numAccepted cont5 ≤ (BuildAcceptIndices cont5).GetSize ∧
    ∀ t ∈ writeTargets cont5,
      0 ≤ t ∧ t < (TArrayI.Set cont5.GetNAcceptEntries).GetSize :=
  claim_C2_amended cont5 (by decide)

/-- Claim C3, counterexample: with an over-reporting hint (2 reported,
1 accepted) the stored index array is `[1, 0]` — not strictly increasing,
and containing position 0 which the predicate rejects. -/
theorem claim_C3_cex :
    (mkIterable contPad true).fAcceptIndices.fArray = [1, 0] ∧
    ¬ (mkIterable contPad true).fAcceptIndices.fArray.Pairwise (· < ·) ∧
    ¬ contPad.AcceptObject 0 = true := by
  decide

/-- Claim C3 (amended): provided the reported accepted count equals the
actual accepted count, the stored index array is strictly increasing, a
subsequence of the scanned positions `[0, GetNEntries())`, contains
exactly the accepted positions, and its length is at most (indeed equal
to) the reported accepted count. -/
theorem claim_C3_amended (cont : AliEmcalContainer α)
    (h : cont.GetNAcceptEntries = numAccepted cont) :
    (mkIterable cont true).fAcceptIndices.fArray.Pairwise (· < ·) ∧
    List.Sublist (mkIterable cont true).fAcceptIndices.fArray
      (loopIndices cont.GetNEntries) ∧
    (∀ x : ℤ, x ∈ (mkIterable cont true).fAcceptIndices.fArray ↔
      x ∈ loopIndices cont.GetNEntries ∧ cont.AcceptObject x = true) ∧
    ((mkIterable cont true).fAcceptIndices.fArray.length : ℤ)
      ≤ cont.GetNAcceptEntries := by
  have hb : (mkIterable cont true).fAcceptIndices = BuildAcceptIndices cont := by
    simp [mkIterable]
  rw [hb, BuildAcceptIndices_eq cont h]
  refine ⟨acceptedList_pairwise cont, List.filter_sublist _, ?_, ?_⟩
  · intro x
    exact List.mem_filter
  · rw [acceptedList_length, h]

/-- Claim C3, witness at the five-element scenario collection. -/
theorem claim_C3_witness :
    (mkIterable cont5 true).fAcceptIndices.fArray.Pairwise (· < ·) ∧
    List.Sublist (mkIterable cont5 true).fAcceptIndices.fArray
      (loopIndices cont5.GetNEntries) ∧
    (∀ x : ℤ, x ∈ (mkIterable cont5 true).fAcceptIndices.fArray ↔
      x ∈ loopIndices cont5.GetNEntries ∧ cont5.AcceptObject x = true) ∧
    ((mkIterable cont5 true).fAcceptIndices.fArray.length : ℤ)
      ≤ cont5.GetNAcceptEntries :=
  claim_C3_amended cont5 (by decide)

/-- Claim C4: for an in-bounds logical index, `operator[]` returns the
source element at the mapped position — through `fAcceptIndices` in
ACCEPTED_ONLY mode, directly in ALL mode. -/
theorem claim_C4_elementAt (v : AliEmcalIterableContainerT α) (i : ℤ)
    (h0 : 0 ≤ i) (h1 : i < v.GetEntries) :
    (v.fUseAccepted = true →
      v.opIndex i = some (v.fkContainer.elem (v.fAcceptIndices.At i))) ∧
    (v.fUseAccepted = false →
      v.opIndex i = some (v.fkContainer.elem i)) := by
  unfold AliEmcalIterableContainerT.opIndex
  rw [if_neg (by omega)]
  constructor
  · intro hu
    rw [hu]
    simp
  · intro hu
    rw [hu]
    simp

/-- Claim C4, witness: accepted-mode access at logical index 0 and
all-mode access at index 2 over the scenario collection. -/
theorem claim_C4_witness :
    (mkIterable cont5 true).opIndex 0
        = some (cont5.elem ((mkIterable cont5 true).fAcceptIndices.At 0)) ∧
    (mkIterable cont5 false).opIndex 2 = some (cont5.elem 2) :=
  ⟨(claim_C4_elementAt (mkIterable cont5 true) 0 (by decide) (by decide)).1 rfl,
   (claim_C4_elementAt (mkIterable cont5 false) 2 (by decide) (by decide)).2 rfl⟩

/-- Claim C5: out-of-range access — an index below 0 or at or above
`GetEntries()` — yields the empty result from `operator[]`, and a cursor
dereference at such a position likewise yields the empty result, in
either direction. -/
theorem claim_C5_out_of_range (v : AliEmcalIterableContainerT α) (i : ℤ)
    (d : Bool) (h : i < 0 ∨ v.GetEntries ≤ i) :
    v.opIndex i = none ∧ (ContIterator.mk v i d).derefOp = none := by
  have hop : v.opIndex i = none := by
    unfold AliEmcalIterableContainerT.opIndex
    rw [if_pos h]
  exact ⟨hop, hop⟩

/-- Claim C5, witness: index 3 is out of range for the 3-element accepted
view of the scenario collection. -/
theorem claim_C5_witness :
    (mkIterable cont5 true).opIndex 3 = none ∧
    (ContIterator.mk (mkIterable cont5 true) 3 true).derefOp = none :=
  claim_C5_out_of_range (mkIterable cont5 true) 3 true (Or.inr (by decide))

/-- Claim C6: with enough fuel, the forward loop from `begin()` to
`end()` visits exactly the elements at logical indices
`0, …, GetEntries()-1` in increasing order, and the backward loop from
`rbegin()` to `rend()` visits the same elements in exactly reverse
order. -/
theorem claim_C6_traversal (v : AliEmcalIterableContainerT α) (fuel : ℕ)
    (h : 0 ≤ v.GetEntries) (hf : v.GetEntries.toNat ≤ fuel) :
    iterTraverse v.begin v.endIter fuel
      = (List.range v.GetEntries.toNat).map (fun k : ℕ => v.opIndex k) ∧
    iterTraverse v.rbegin v.rend fuel
      = ((List.range v.GetEntries.toNat).map (fun k : ℕ => v.opIndex k)).reverse := by
  have hcast : ((v.GetEntries.toNat : ℕ) : ℤ) = v.GetEntries :=
    Int.toNat_of_nonneg h
  constructor
  · have hres := iterTraverse_forward v v.endIter v.GetEntries.toNat 0 fuel hf
      (by show v.GetEntries = 0 + ((v.GetEntries.toNat : ℕ) : ℤ); rw [hcast]; ring)
    have hb : v.begin = (⟨v, 0, true⟩ : ContIterator α) := rfl
    rw [hb, hres]
    apply List.map_congr_left
    intro a _
    simp
  · have hres := iterTraverse_backward v v.rend v.GetEntries.toNat
      (v.GetEntries - 1) fuel hf
      (by show (-1 : ℤ) = v.GetEntries - 1 - ((v.GetEntries.toNat : ℕ) : ℤ)
          rw [hcast]; ring)
    have hb : v.rbegin = (⟨v, v.GetEntries - 1, false⟩ : ContIterator α) := rfl
    rw [hb, hres, map_range_reverse]
    apply List.map_congr_left
    intro a ha
    have ha' := List.mem_range.mp ha
    congr 1
    omega

/-- Claim C6, witness: both traversals of the accepted view of the
scenario collection with fuel 3. -/
theorem claim_C6_witness :
    iterTraverse (mkIterable cont5 true).begin (mkIterable cont5 true).endIter 3
      = (List.range (mkIterable cont5 true).GetEntries.toNat).map
          (fun k : ℕ => (mkIterable cont5 true).opIndex k) ∧
    iterTraverse (mkIterable cont5 true).rbegin (mkIterable cont5 true).rend 3
      = ((List.range (mkIterable cont5 true).GetEntries.toNat).map
          (fun k : ℕ => (mkIterable cont5 true).opIndex k)).reverse :=
  claim_C6_traversal (mkIterable cont5 true) 3 (by decide) (by decide)

/-- Claim C7: advancing then retreating (and retreating then advancing)
restores the cursor exactly; advancing moves the position by `+1` forward
and `-1` backward, retreating by the exact mirror; the postfix variants
return the pre-operation snapshot. -/
theorem claim_C7_advance_retreat (it : ContIterator α) :
    it.incOp.decOp = it ∧ it.decOp.incOp = it ∧
    it.incOp.fCurrent = it.fCurrent + (if it.fForward then 1 else -1) ∧
    it.decOp.fCurrent = it.fCurrent - (if it.fForward then 1 else -1) ∧
    it.incPost = (it.incOp, it) ∧ it.decPost = (it.decOp, it) := by
  obtain ⟨d, c, f⟩ := it
  cases f with
  | false =>
    simp [ContIterator.incOp, ContIterator.decOp, ContIterator.incPost,
      ContIterator.decPost]
    all_goals omega
  | true =>
    simp [ContIterator.incOp, ContIterator.decOp, ContIterator.incPost,
      ContIterator.decPost]

/-- Claim C8: the iterator inequality comparison holds exactly when the
positions differ, and its negation exactly when they coincide — the
direction flags and the referenced views (which may differ between the
two cursors) play no role. -/
theorem claim_C8_compare (a b : ContIterator α) :
    (a.neOp b = true ↔ a.fCurrent ≠ b.fCurrent) ∧
    (a.neOp b = false ↔ a.fCurrent = b.fCurrent) := by
  unfold ContIterator.neOp
  refine ⟨?_, ?_⟩ <;> simp

/-- Claim C9: index construction is deterministic and depends only on the
collection's counts and predicate answers — two collections agreeing on
those (even with different elements) produce identical `fAcceptIndices`,
in either mode. -/
theorem claim_C9_deterministic (c1 c2 : AliEmcalContainer α) (mode : Bool)
    (hn : c1.GetNEntries = c2.GetNEntries)
    (hhint : c1.GetNAcceptEntries = c2.GetNAcceptEntries)
    (hacc : ∀ i : ℤ, c1.AcceptObject i = c2.AcceptObject i) :
    (mkIterable c1 mode).fAcceptIndices = (mkIterable c2 mode).fAcceptIndices := by
  cases mode with
  | false => rfl
  | true =>
    show BuildAcceptIndices c1 = BuildAcceptIndices c2
    unfold BuildAcceptIndices
    rw [hn, hhint, foldl_acceptStep_congr c1 c2 hacc]

/-- Claim C9, witness: two collections identical except for their element
values produce the same accept-index array. -/
theorem claim_C9_witness :
    (mkIterable cont5 true).fAcceptIndices
      = (mkIterable cont5alt true).fAcceptIndices :=
  claim_C9_deterministic cont5 cont5alt true rfl rfl (fun _ => rfl)

/-- Claim C10: over a view with zero entries the backward sentinels
coincide — `rbegin()` and `rend()` both sit at position `-1`, they compare
position-equal, and a backward traversal performs zero iterations. -/
theorem claim_C10_empty_backward (v : AliEmcalIterableContainerT α)
    (h : v.GetEntries = 0) :
    v.rbegin.fCurrent = -1 ∧ v.rend.fCurrent = -1 ∧
    v.rbegin.neOp v.rend = false ∧
    ∀ fuel : ℕ, iterTraverse v.rbegin v.rend fuel = [] := by
  have h1 : v.rbegin.fCurrent = -1 := by
    show v.GetEntries - 1 = -1
    omega
  have h2 : v.rend.fCurrent = -1 := rfl
  have h3 : v.rbegin.neOp v.rend = false := by
    unfold ContIterator.neOp
    rw [h1, h2]
    simp
  refine ⟨h1, h2, h3, ?_⟩
  intro fuel
  cases fuel with
  | zero => rfl
  | succ f =>
    unfold iterTraverse
    rw [if_neg (by simp [h3])]

/-- Claim C10, witness: the empty collection in ALL mode. -/
theorem claim_C10_witness :
    (mkIterable contEmpty false).rbegin.fCurrent = -1 ∧
    (mkIterable contEmpty false).rend.fCurrent = -1 ∧
    (mkIterable contEmpty false).rbegin.neOp (mkIterable contEmpty false).rend
      = false ∧
    ∀ fuel : ℕ, iterTraverse (mkIterable contEmpty false).rbegin
      (mkIterable contEmpty false).rend fuel = [] :=
  claim_C10_empty_backward (mkIterable contEmpty false) (by decide)
